import Mathlib

/-!
Shallow embedding of `src/elevator_sim.py` (Hotel California elevator simulator).

Conventions of the embedding:

* Python integers become `Int`; `abs` becomes `Int.natAbs` of the difference.
* `UpPQ` wraps a Python `heapq` min-heap over a plain list; `DownPQ` wraps the
  same min-heap over *negated* floors (so its pop yields the maximum floor).
  `heapq` is Python standard-library code (not part of this repository), so it
  is modelled by its contract: the heap array is kept as a sorted (ascending)
  list with the same multiset of elements; `heappush` inserts in order,
  `heappop` removes the head (the minimum), `heap[0]` peeks the minimum,
  `list.remove(v)` deletes the first occurrence of `v`, and `heapify` on the
  already-ordered remainder is the identity.  Every observable of the program
  (pop/peek order, membership, counts, the sorted rendering used by
  `print_status`) agrees with the real binary heap.
* The `LinkedList` history and the `deque`-backed `RequestQueue` become plain
  lists (front first); the undo `Stack`'s `_data` list keeps its Python layout
  (top = last element).  Undo-ledger entries are always the tuple
  `('request', floor)` in the source, so an entry is modelled by its floor.
* The interactive command branches of `run_interactive` become pure functions
  on a `SimState` record (`submitRequest`, `undoLast`, `stepAll`,
  `runToCompletion`); printing is replaced by returned outcome values.
* The unbounded `while True` of the `auto` branch increments `steps` and exits
  as soon as `steps > 1000`, so it runs at most 1001 iterations; it is embedded
  with a structural fuel argument (`autoLoopFuel`), called with fuel 1001,
  which the cap prevents from ever being exhausted
  (`autoLoopFuel_fuel_irrelevant`).
-/

abbrev MIN_FLOOR : Int := -10
abbrev MAX_FLOOR : Int := 30

inductive Direction
  | up
  | down
  | idle
deriving DecidableEq, Repr

/-- Class `UpPQ`: min-heap of pending floors (Python `heapq` on `self.heap`),
modelled as an ascending sorted list. -/
structure UpPQ where
  heap : List Int
deriving DecidableEq, Repr

def UpPQ.push (q : UpPQ) (floor : Int) : UpPQ :=
  ⟨List.orderedInsert (· ≤ ·) floor q.heap⟩

def UpPQ.pop (q : UpPQ) : Option Int × UpPQ :=
  match q.heap with
  | [] => (none, q)
  | h :: t => (some h, ⟨t⟩)

def UpPQ.peek (q : UpPQ) : Option Int :=
  q.heap.head?

def UpPQ.empty (q : UpPQ) : Bool :=
  q.heap.isEmpty

/-- Class `DownPQ`: max-heap of pending floors, realised in the source as a min-heap
of negated floors (`heappush(self.heap, -floor)`); the `heap` field stores the
negated values, ascending. -/
structure DownPQ where
  heap : List Int
deriving DecidableEq, Repr

def DownPQ.push (q : DownPQ) (floor : Int) : DownPQ :=
  ⟨List.orderedInsert (· ≤ ·) (-floor) q.heap⟩

def DownPQ.pop (q : DownPQ) : Option Int × DownPQ :=
  match q.heap with
  | [] => (none, q)
  | h :: t => (some (-h), ⟨t⟩)

def DownPQ.peek (q : DownPQ) : Option Int :=
  match q.heap.head? with
  | none => none
  | some h => some (-h)

def DownPQ.empty (q : DownPQ) : Bool :=
  q.heap.isEmpty

/-- One elevator car (`class Elevator`): name, current floor, direction, the
two directional queues and the visit history (`LinkedList`, front first). -/
structure Elevator where
  name : String
  current : Int
  direction : Direction
  up : UpPQ
  down : DownPQ
  history : List Int
deriving DecidableEq, Repr

def Elevator.mk0 (name : String) : Elevator :=
  { name := name, current := 0, direction := .idle
    up := ⟨[]⟩, down := ⟨[]⟩, history := [] }

/-- Method `Elevator.add_request`: serve immediately (history only) when the floor
equals the current floor, else route to the up- or down-queue. -/
def Elevator.addRequest (e : Elevator) (floor : Int) : Elevator :=
  if floor = e.current then
    { e with history := e.history ++ [floor] }
  else if floor > e.current then
    { e with up := e.up.push floor }
  else
    { e with down := e.down.push floor }

def Elevator.hasPending (e : Elevator) : Bool :=
  !e.up.empty || !e.down.empty

/-- The `if` direction-up block of `move_to_next`: pop the up-queue
if possible, otherwise fall over to the down-queue, updating the direction
exactly as the source does. -/
def Elevator.serveUpBlock (e : Elevator) : Elevator × Option Int :=
  match e.up.heap with
  | target :: rest =>
      let dir : Direction :=
        if rest = [] ∧ e.down.heap ≠ [] then .down
        else if rest = [] then .idle
        else e.direction
      ({ e with up := ⟨rest⟩, current := target,
                history := e.history ++ [target], direction := dir },
       some target)
  | [] =>
      match e.down.heap with
      | nh :: rest =>
          let target : Int := -nh
          let dir : Direction :=
            if rest ≠ [] then .down
            else if e.up.heap ≠ [] then .up
            else .idle
          ({ e with down := ⟨rest⟩, current := target,
                    history := e.history ++ [target], direction := dir },
           some target)
      | [] => ({ e with direction := .idle }, none)

/-- The `if` direction-down block of `move_to_next`, mirror image
of `serveUpBlock`. -/
def Elevator.serveDownBlock (e : Elevator) : Elevator × Option Int :=
  match e.down.heap with
  | nh :: rest =>
      let target : Int := -nh
      let dir : Direction :=
        if rest = [] ∧ e.up.heap ≠ [] then .up
        else if rest = [] then .idle
        else e.direction
      ({ e with down := ⟨rest⟩, current := target,
                history := e.history ++ [target], direction := dir },
       some target)
  | [] =>
      match e.up.heap with
      | target :: rest =>
          let dir : Direction :=
            if rest ≠ [] then .up
            else if e.down.heap ≠ [] then .down
            else .idle
          ({ e with up := ⟨rest⟩, current := target,
                    history := e.history ++ [target], direction := dir },
           some target)
      | [] => ({ e with direction := .idle }, none)

/-- Method `Elevator.move_to_next`: choose a direction when idle (closest peek wins,
ties choose up), then serve one floor in that direction.  Returns the updated
car and the served floor (`None` when nothing was pending). -/
def Elevator.moveToNext (e : Elevator) : Elevator × Option Int :=
  if e.direction = .idle then
    match e.up.peek, e.down.peek with
    | some up_p, some down_p =>
        if (up_p - e.current).natAbs ≤ (down_p - e.current).natAbs then
          Elevator.serveUpBlock { e with direction := .up }
        else
          Elevator.serveDownBlock { e with direction := .down }
    | some _, none => Elevator.serveUpBlock { e with direction := .up }
    | none, some _ => Elevator.serveDownBlock { e with direction := .down }
    | none, none => (e, none)
  else if e.direction = .up then
    Elevator.serveUpBlock e
  else
    Elevator.serveDownBlock e

inductive CarId
  | A
  | B
deriving DecidableEq, Repr

/-- The inner `suitable` helper of `assign_request_to_elevator`. -/
def suitable (floor : Int) (e : Elevator) : Bool :=
  if e.direction = .idle then true
  else if e.direction = .up ∧ floor ≥ e.current then true
  else if e.direction = .down ∧ floor ≤ e.current then true
  else false

/-- Function `assign_request_to_elevator`: same-direction preference, then idle
preference, then proximity with ties to car A.  A pure function of the two
car states; it mutates nothing. -/
def assignRequestToElevator (floor : Int) (A B : Elevator) : CarId :=
  if suitable floor A ∧ ¬ suitable floor B then .A
  else if suitable floor B ∧ ¬ suitable floor A then .B
  else if A.direction = .idle ∧ B.direction ≠ .idle then .A
  else if B.direction = .idle ∧ A.direction ≠ .idle then .B
  else if (A.current - floor).natAbs ≤ (B.current - floor).natAbs then .A
  else .B

/-- The dispatcher as the spec words it (§4.3): exactly-one-suitable, then
exactly-one-idle, then strictly smaller absolute distance with exact ties
resolved to the first car.  Stated independently of the source's nested
conditionals; `assignRequestToElevator_eq_spec` proves the two agree. -/
def assignSpec (floor : Int) (A B : Elevator) : CarId :=
  if suitable floor A ≠ suitable floor B then
    (if suitable floor A then .A else .B)
  else if ¬ (A.direction = .idle ↔ B.direction = .idle) then
    (if A.direction = .idle then .A else .B)
  else if (A.current - floor).natAbs < (B.current - floor).natAbs then .A
  else if (B.current - floor).natAbs < (A.current - floor).natAbs then .B
  else .A

/-- The whole interactive session's mutable state: the two cars (the
`elevators` array), the incoming FIFO (`RequestQueue.q`, front first) and the
undo stack (`Stack._data`, most recent last; entries are always
`('request', floor)`, kept as the floor). -/
structure SimState where
  carA : Elevator
  carB : Elevator
  reqQ : List Int
  undoStack : List Int
deriving DecidableEq, Repr

def initState : SimState :=
  { carA := Elevator.mk0 "A", carB := Elevator.mk0 "B"
    reqQ := [], undoStack := [] }

inductive SubmitResult
  | rangeError
  | queuedOnly
  | assigned (car : CarId)
deriving DecidableEq, Repr

/-- The `request <floor>` branch of `run_interactive`: bounds check, push to
the FIFO and the undo stack, then immediately pop the FIFO's front and
dispatch it to the selected car.  (`queuedOnly` is the unreachable
`next_req is None` arm: the FIFO was pushed one line earlier.) -/
def submitRequest (floor : Int) (s : SimState) : SimState × SubmitResult :=
  if floor < MIN_FLOOR ∨ floor > MAX_FLOOR then (s, .rangeError)
  else
    let s1 : SimState :=
      { s with reqQ := s.reqQ ++ [floor], undoStack := s.undoStack ++ [floor] }
    match s1.reqQ with
    | [] => (s1, .queuedOnly)
    | next :: rest =>
        let s2 : SimState := { s1 with reqQ := rest }
        match assignRequestToElevator next s2.carA s2.carB with
        | .A => ({ s2 with carA := s2.carA.addRequest next }, .assigned .A)
        | .B => ({ s2 with carB := s2.carB.addRequest next }, .assigned .B)

inductive UndoResult
  | nothingToUndo
  | removed (floor : Int)
  | notFound (floor : Int)
deriving DecidableEq, Repr

/-- The `undo` branch of `run_interactive`: pop the most recent ledger entry
`v`, then try `remove` on the incoming FIFO and on both heaps of both cars
(the down-heaps store `-v`), re-heapifying after each hit; `removed` records
whether any container held `v`. -/
def undoLast (s : SimState) : SimState × UndoResult :=
  match s.undoStack.getLast? with
  | none => (s, .nothingToUndo)
  | some v =>
      let popped := s.undoStack.dropLast
      let hitQ : Bool := v ∈ s.reqQ
      let hitAup : Bool := v ∈ s.carA.up.heap
      let hitAdown : Bool := (-v) ∈ s.carA.down.heap
      let hitBup : Bool := v ∈ s.carB.up.heap
      let hitBdown : Bool := (-v) ∈ s.carB.down.heap
      let A' : Elevator :=
        { s.carA with up := ⟨s.carA.up.heap.erase v⟩
                      down := ⟨s.carA.down.heap.erase (-v)⟩ }
      let B' : Elevator :=
        { s.carB with up := ⟨s.carB.up.heap.erase v⟩
                      down := ⟨s.carB.down.heap.erase (-v)⟩ }
      let s' : SimState :=
        { carA := A', carB := B', reqQ := s.reqQ.erase v, undoStack := popped }
      if hitQ || hitAup || hitAdown || hitBup || hitBdown then
        (s', .removed v)
      else
        (s', .notFound v)

/-- The `step` branch: each elevator (A then B) serves its next target. -/
def stepAll (s : SimState) : SimState × List (CarId × Int) :=
  let ra := s.carA.moveToNext
  let rb := s.carB.moveToNext
  ({ s with carA := ra.1, carB := rb.1 },
   (match ra.2 with | some f => [(CarId.A, f)] | none => []) ++
   (match rb.2 with | some f => [(CarId.B, f)] | none => []))

def anyPending (s : SimState) : Bool :=
  s.carA.hasPending || s.carB.hasPending

/-- The `while True` loop of the `auto` branch, with the iteration counter
`steps` and a structural fuel argument.  The loop body exits as soon as
`steps` exceeds 1000, so with fuel 1001 (as `runToCompletion` supplies) the
fuel is never exhausted; the `0` arm is unreachable filler
(see `autoLoopFuel_fuel_irrelevant`). -/
def autoLoopFuel : Nat → SimState → Nat → SimState × Nat × Bool
  | 0, s, steps => (s, steps, true)
  | fuel + 1, s, steps =>
      if anyPending s = false then (s, steps, true)
      else
        let s' := (stepAll s).1
        let steps' := steps + 1
        if 1000 < steps' then (s', steps', false)
        else autoLoopFuel fuel s' steps'

/-- The `auto` command (`run_to_completion`): loop until no car has pending
targets or the safety cap trips; returns the final state, the number of loop
iterations performed and whether the run completed (exited on no-pending). -/
def runToCompletion (s : SimState) : SimState × Nat × Bool :=
  autoLoopFuel 1001 s 0

/-- The public operations of §6 (the interactive commands that mutate state);
`status`/`help` are pure prints and are omitted. -/
inductive Op
  | request (floor : Int)
  | undo
  | stepCmd
  | auto
deriving DecidableEq, Repr

def applyOp (s : SimState) (op : Op) : SimState :=
  match op with
  | .request f => (submitRequest f s).1
  | .undo => (undoLast s).1
  | .stepCmd => (stepAll s).1
  | .auto => (runToCompletion s).1

def runOps (s : SimState) (ops : List Op) : SimState :=
  ops.foldl applyOp s

/-- The two operations a single car ever receives from the simulator:
an `add_request` or a `move_to_next`. -/
inductive CarOp
  | add (floor : Int)
  | serve
deriving DecidableEq, Repr

def applyCarOp (e : Elevator) (op : CarOp) : Elevator :=
  match op with
  | .add f => e.addRequest f
  | .serve => (e.moveToNext).1

def runCarOps (e : Elevator) (ops : List CarOp) : Elevator :=
  ops.foldl applyCarOp e

/-- The floors a car pops from its Up-queue over a run of consecutive serves
during which its direction stays `up`; the collection stops at the first
operation executed with direction ≠ `up` and at the first serve that would
have to fall over to the Down-queue. -/
def upRunServes (e : Elevator) : List CarOp → List Int
  | [] => []
  | CarOp.add f :: rest =>
      if e.direction = .up then upRunServes (e.addRequest f) rest else []
  | CarOp.serve :: rest =>
      if e.direction = .up ∧ e.up.heap ≠ [] then
        match e.moveToNext.2 with
        | some t => t :: upRunServes e.moveToNext.1 rest
        | none => []
      else []

/-- Mirror image of `upRunServes` for the Down-queue while direction stays
`down`. -/
def downRunServes (e : Elevator) : List CarOp → List Int
  | [] => []
  | CarOp.add f :: rest =>
      if e.direction = .down then downRunServes (e.addRequest f) rest else []
  | CarOp.serve :: rest =>
      if e.direction = .down ∧ e.down.heap ≠ [] then
        match e.moveToNext.2 with
        | some t => t :: downRunServes e.moveToNext.1 rest
        | none => []
      else []

/-- Post-step direction/emptiness invariant of a car (claim C4). -/
def dirInv (e : Elevator) : Prop :=
  e.direction = .idle ↔ (e.up.heap = [] ∧ e.down.heap = [])

/-- Structural car invariant: both heap lists are sorted ascending (the heap
order the source maintains via `heapq`), every pending up-floor is ≥ the
current floor, and every pending down-floor is ≤ the current floor. -/
def carInv (e : Elevator) : Prop :=
  e.up.heap.Sorted (· ≤ ·) ∧ e.down.heap.Sorted (· ≤ ·) ∧
  (∀ x ∈ e.up.heap, e.current ≤ x) ∧ (∀ y ∈ e.down.heap, -y ≤ e.current)

def inRange (f : Int) : Prop :=
  MIN_FLOOR ≤ f ∧ f ≤ MAX_FLOOR

/-- Every floor stored anywhere in a car is in `[MIN_FLOOR, MAX_FLOOR]`. -/
def carInRange (e : Elevator) : Prop :=
  inRange e.current ∧ (∀ x ∈ e.up.heap, inRange x) ∧
  (∀ y ∈ e.down.heap, inRange (-y)) ∧ (∀ h ∈ e.history, inRange h)

/-- Every floor stored anywhere in the simulation is in range (claim C10). -/
def stateInRange (s : SimState) : Prop :=
  carInRange s.carA ∧ carInRange s.carB ∧ (∀ f ∈ s.reqQ, inRange f)

def opsInRange (ops : List Op) : Prop :=
  ∀ op ∈ ops, match op with
  | Op.request f => inRange f
  | _ => True

example : (Elevator.mk0 "A").moveToNext = (Elevator.mk0 "A", none) := by decide

example :
    (((Elevator.mk0 "A").addRequest 5).moveToNext).2 = some 5 := by decide

example :
    (submitRequest 5 initState).2 = SubmitResult.assigned CarId.A := by decide

example :
    (undoLast (submitRequest 5 initState).1).1 = initState := by decide

example :
    (runToCompletion initState).2 = (0, true) := by decide

/-! ## Helper lemmas -/

theorem erase_orderedInsert (x : Int) (l : List Int) :
    (List.orderedInsert (· ≤ ·) x l).erase x = l := by
  induction l with
  | nil => simp [List.orderedInsert]
  | cons y t ih =>
      by_cases h : x ≤ y
      · simp [List.orderedInsert, h]
      · have hne : y ≠ x := by omega
        simp [List.orderedInsert, h, List.erase_cons, hne, ih]

theorem addRequest_current (e : Elevator) (f : Int) :
    (e.addRequest f).current = e.current := by
  unfold Elevator.addRequest
  split_ifs <;> rfl

theorem addRequest_direction (e : Elevator) (f : Int) :
    (e.addRequest f).direction = e.direction := by
  unfold Elevator.addRequest
  split_ifs <;> rfl

/-! ## C8: out-of-range floors are rejected before any mutation -/

/-- C8: for every floor outside `[MIN_FLOOR, MAX_FLOOR]`, submit_request
fails with the range error and the whole simulation state is returned
unchanged — nothing is enqueued anywhere. -/
theorem submitRequest_out_of_range (s : SimState) (f : Int)
    (h : f < MIN_FLOOR ∨ MAX_FLOOR < f) :
    submitRequest f s = (s, SubmitResult.rangeError) := by
  unfold submitRequest
  rw [if_pos h]

theorem submitRequest_out_of_range_witness :
    ((31 : Int) < MIN_FLOOR ∨ MAX_FLOOR < (31 : Int)) ∧
    submitRequest 31 initState = (initState, SubmitResult.rangeError) :=
  ⟨by decide, submitRequest_out_of_range initState 31 (by decide)⟩

/-! ## C6: add_request routing -/

/-- C6: calling `add_request(F)` on a car at floor `F` appends `F` to the history and
leaves both queues (and the position and direction) unchanged; otherwise it
adds exactly one entry for `F` to the Up-queue when `F > current`, to the
Down-queue when `F < current`, and touches nothing else. -/
theorem addRequest_cases (e : Elevator) (f : Int) :
    (f = e.current →
      (e.addRequest f).history = e.history ++ [f] ∧
      (e.addRequest f).up = e.up ∧ (e.addRequest f).down = e.down ∧
      (e.addRequest f).current = e.current ∧
      (e.addRequest f).direction = e.direction) ∧
    (e.current < f →
      (e.addRequest f).up.heap.count f = e.up.heap.count f + 1 ∧
      (∀ g, g ≠ f → (e.addRequest f).up.heap.count g = e.up.heap.count g) ∧
      (e.addRequest f).down = e.down ∧
      (e.addRequest f).history = e.history ∧
      (e.addRequest f).current = e.current ∧
      (e.addRequest f).direction = e.direction) ∧
    (f < e.current →
      (e.addRequest f).down.heap.count (-f) = e.down.heap.count (-f) + 1 ∧
      (∀ g, g ≠ -f → (e.addRequest f).down.heap.count g = e.down.heap.count g) ∧
      (e.addRequest f).up = e.up ∧
      (e.addRequest f).history = e.history ∧
      (e.addRequest f).current = e.current ∧
      (e.addRequest f).direction = e.direction) := by
  refine ⟨fun h => ?_, fun h => ?_, fun h => ?_⟩
  · simp [Elevator.addRequest, h]
  · have h1 : ¬ (f = e.current) := by omega
    refine ⟨?_, fun g hg => ?_, ?_, ?_, ?_, ?_⟩
    · simp [Elevator.addRequest, h1, h, UpPQ.push,
            (List.perm_orderedInsert _ f _).count_eq, List.count_cons]
    · simp [Elevator.addRequest, h1, h, UpPQ.push,
            (List.perm_orderedInsert _ f _).count_eq, List.count_cons, hg]
    all_goals simp [Elevator.addRequest, h1, h]
  · have h1 : ¬ (f = e.current) := by omega
    have h2 : ¬ (f > e.current) := by omega
    refine ⟨?_, fun g hg => ?_, ?_, ?_, ?_, ?_⟩
    · simp [Elevator.addRequest, h1, h2, DownPQ.push,
            (List.perm_orderedInsert _ (-f) _).count_eq, List.count_cons]
    · simp [Elevator.addRequest, h1, h2, DownPQ.push,
            (List.perm_orderedInsert _ (-f) _).count_eq, List.count_cons, hg]
    all_goals simp [Elevator.addRequest, h1, h2]

theorem addRequest_cases_witness :
    ((5 : Int) = (Elevator.mk0 "A").current → False) ∧
    ((Elevator.mk0 "A").current < 5 ∧
      (((Elevator.mk0 "A").addRequest 5).up.heap.count 5 =
        (Elevator.mk0 "A").up.heap.count 5 + 1)) :=
  ⟨by decide, by decide, ((addRequest_cases (Elevator.mk0 "A") 5).2.1 (by decide)).1⟩

/-! ## C5: direction choice of an idle car -/

/-- C5: invoked on an Idle car, move_to_next serves the Up-peek when its
absolute distance to `current` is smaller or equal (ties favour Up), serves
the Down-peek when that one is strictly closer, serves the single non-empty
queue's peek when only one queue is non-empty, and does nothing (staying
Idle) when both queues are empty. -/
theorem moveToNext_idle_choice (e : Elevator) (h : e.direction = .idle) :
    (e.up.heap = [] ∧ e.down.heap = [] → e.moveToNext = (e, none)) ∧
    (∀ u d, e.up.peek = some u → e.down.peek = some d →
      ((u - e.current).natAbs ≤ (d - e.current).natAbs →
        e.moveToNext.2 = some u ∧
        e.moveToNext.1.current = u ∧
        e.moveToNext.1.up.heap = e.up.heap.tail ∧
        e.moveToNext.1.down = e.down) ∧
      ((d - e.current).natAbs < (u - e.current).natAbs →
        e.moveToNext.2 = some d ∧
        e.moveToNext.1.current = d ∧
        e.moveToNext.1.down.heap = e.down.heap.tail ∧
        e.moveToNext.1.up = e.up)) ∧
    (∀ u, e.up.peek = some u → e.down.peek = none →
      e.moveToNext.2 = some u ∧
      e.moveToNext.1.current = u ∧
      e.moveToNext.1.up.heap = e.up.heap.tail ∧
      e.moveToNext.1.down = e.down) ∧
    (∀ d, e.up.peek = none → e.down.peek = some d →
      e.moveToNext.2 = some d ∧
      e.moveToNext.1.current = d ∧
      e.moveToNext.1.down.heap = e.down.heap.tail ∧
      e.moveToNext.1.up = e.up) := by
  obtain ⟨n, c, dir, ⟨uh⟩, ⟨dh⟩, hist⟩ := e
  simp only at h
  subst h
  refine ⟨fun ⟨h1, h2⟩ => ?_, fun u d hu hd => ?_, fun u hu hd => ?_,
          fun d hu hd => ?_⟩
  · subst h1; subst h2
    simp [Elevator.moveToNext, UpPQ.peek, DownPQ.peek]
  · cases uh with
    | nil => simp [UpPQ.peek] at hu
    | cons a t =>
        cases dh with
        | nil => simp [DownPQ.peek] at hd
        | cons b t' =>
            simp [UpPQ.peek, DownPQ.peek] at hu hd
            subst hu
            constructor <;> intro hle <;>
              simp [Elevator.moveToNext, UpPQ.peek, DownPQ.peek,
                    Elevator.serveUpBlock, Elevator.serveDownBlock, hd, hle,
                    Nat.not_le.mpr]
  · cases uh with
    | nil => simp [UpPQ.peek] at hu
    | cons a t =>
        cases dh with
        | cons b t' => simp [DownPQ.peek] at hd
        | nil =>
            simp [UpPQ.peek] at hu
            subst hu
            simp [Elevator.moveToNext, UpPQ.peek, DownPQ.peek,
                  Elevator.serveUpBlock]
  · cases dh with
    | nil => simp [DownPQ.peek] at hd
    | cons b t' =>
        cases uh with
        | cons a t => simp [UpPQ.peek] at hu
        | nil =>
            simp [DownPQ.peek] at hd
            simp [Elevator.moveToNext, UpPQ.peek, DownPQ.peek,
                  Elevator.serveDownBlock, hd]

def c5car : Elevator :=
  { name := "A", current := 0, direction := .idle
    up := ⟨[3]⟩, down := ⟨[4]⟩, history := [] }

theorem moveToNext_idle_choice_witness :
    c5car.direction = Direction.idle ∧
    (c5car.moveToNext.2 = some 3 ∧ c5car.moveToNext.1.current = 3 ∧
     c5car.moveToNext.1.up.heap = [] ∧ c5car.moveToNext.1.down = c5car.down) := by
  refine ⟨rfl, ?_⟩
  have h := ((moveToNext_idle_choice c5car rfl).2.1 3 (-4) rfl rfl).1 (by decide)
  exact ⟨h.1, h.2.1, h.2.2.1, h.2.2.2⟩

/-! ## C7: the dispatcher agrees with its specification -/

/-- C7: for every request floor and pair of car states,
`assign_request_to_elevator` computes exactly the spec's strict-priority rule:
the unique suitable car if exactly one is suitable, else the unique Idle car
if exactly one is Idle, else the strictly closer car with exact ties going to
the first car.  Both sides are pure functions of the car states; no car is
mutated. -/
theorem assign_eq_assignSpec (f : Int) (A B : Elevator) :
    assignRequestToElevator f A B = assignSpec f A B := by
  unfold assignRequestToElevator assignSpec
  cases hA : suitable f A <;> cases hB : suitable f B <;>
    by_cases hAi : A.direction = Direction.idle <;>
    by_cases hBi : B.direction = Direction.idle <;>
    simp [hA, hB, hAi, hBi] <;> split_ifs <;> first | rfl | omega

/-! ## C4: post-step direction/emptiness invariant -/

theorem dirInv_serveUpBlock (e : Elevator) (h : ¬ e.direction = .idle) :
    dirInv (e.serveUpBlock).1 := by
  obtain ⟨n, c, dir, ⟨uh⟩, ⟨dh⟩, hist⟩ := e
  simp only at h
  cases uh <;> cases dh <;>
    simp [Elevator.serveUpBlock, dirInv] <;> intros <;>
    first
      | (split_ifs <;> simp_all)
      | simp_all

theorem dirInv_serveDownBlock (e : Elevator) (h : ¬ e.direction = .idle) :
    dirInv (e.serveDownBlock).1 := by
  obtain ⟨n, c, dir, ⟨uh⟩, ⟨dh⟩, hist⟩ := e
  simp only at h
  cases uh <;> cases dh <;>
    simp [Elevator.serveDownBlock, dirInv] <;> intros <;>
    first
      | (split_ifs <;> simp_all)
      | simp_all

theorem dirInv_moveToNext (e : Elevator) : dirInv (e.moveToNext).1 := by
  by_cases h1 : e.direction = .idle
  · rw [Elevator.moveToNext, if_pos h1]
    rcases hu : e.up.heap with _ | ⟨a, t⟩ <;> rcases hd : e.down.heap with _ | ⟨b, t'⟩
    · simp only [UpPQ.peek, DownPQ.peek, hu, hd, List.head?_nil]
      simp [dirInv, h1, hu, hd]
    · have hup : e.up.peek = none := by simp [UpPQ.peek, hu]
      have hdp : e.down.peek = some (-b) := by simp [DownPQ.peek, hd]
      simp only [hup, hdp]
      exact dirInv_serveDownBlock _ (by simp)
    · have hup : e.up.peek = some a := by simp [UpPQ.peek, hu]
      have hdp : e.down.peek = none := by simp [DownPQ.peek, hd]
      simp only [hup, hdp]
      exact dirInv_serveUpBlock _ (by simp)
    · have hup : e.up.peek = some a := by simp [UpPQ.peek, hu]
      have hdp : e.down.peek = some (-b) := by simp [DownPQ.peek, hd]
      simp only [hup, hdp]
      split_ifs
      · exact dirInv_serveUpBlock _ (by simp)
      · exact dirInv_serveDownBlock _ (by simp)
  · rw [Elevator.moveToNext, if_neg h1]
    by_cases h2 : e.direction = .up
    · rw [if_pos h2]
      exact dirInv_serveUpBlock e h1
    · rw [if_neg h2]
      exact dirInv_serveDownBlock e h1

/-- C4: after any sequence of public operations from the initial state
followed by one `step`, each car's direction is Idle exactly when both of its
queues are empty at that instant.  (The sequence may interleave requests,
undos, steps and auto-runs; the invariant is re-established by every step.) -/
theorem step_dirInv (ops : List Op) :
    dirInv (stepAll (runOps initState ops)).1.carA ∧
    dirInv (stepAll (runOps initState ops)).1.carB :=
  ⟨dirInv_moveToNext _, dirInv_moveToNext _⟩

/-! ## C1: what a single undo removes -/

/-- A reachable state in which floor 6 is pending in both cars' Up-queues:
request 4 and 6 (both to A), step (A serves 4 and stays MovingUp towards 6),
request 2 (A unsuitable, so B), request 6 (both suitable, B is the only Idle
car).  Its undo ledger's most recent entry is the request for 6. -/
def undoTwiceState : SimState :=
  runOps initState [Op.request 4, Op.request 6, Op.stepCmd, Op.request 2, Op.request 6]

/-- Counter to C1: one undo of the request for floor 6 removes TWO pending
entries with value 6 — one from each car's Up-queue — because the source
keeps trying every container instead of stopping at the first successful
removal. -/
theorem undo_removes_two_entries :
    undoTwiceState.undoStack.getLast? = some 6 ∧
    undoTwiceState.carA.up.heap.count 6 + undoTwiceState.carB.up.heap.count 6 = 2 ∧
    (undoLast undoTwiceState).2 = UndoResult.removed 6 ∧
    (undoLast undoTwiceState).1.carA.up.heap.count 6 +
      (undoLast undoTwiceState).1.carB.up.heap.count 6 = 0 := by decide

/-- C1 (amended): when undo pops a ledger entry for floor `v` it attempts
removal in EVERY container — the incoming FIFO and each car's Up- and
Down-queue — deleting one occurrence of `v` from each container that holds it
(so at most one entry per container, but possibly several across containers);
no position, direction or history changes; the outcome is `removed v` iff
some container held `v` and `"already served / not found"` otherwise. -/
theorem undoLast_removes_everywhere (s : SimState) (v : Int)
    (h : s.undoStack.getLast? = some v) :
    ((undoLast s).1.reqQ.count v = s.reqQ.count v - 1 ∧
     (undoLast s).1.carA.up.heap.count v = s.carA.up.heap.count v - 1 ∧
     (undoLast s).1.carA.down.heap.count (-v) = s.carA.down.heap.count (-v) - 1 ∧
     (undoLast s).1.carB.up.heap.count v = s.carB.up.heap.count v - 1 ∧
     (undoLast s).1.carB.down.heap.count (-v) = s.carB.down.heap.count (-v) - 1) ∧
    (∀ w, w ≠ v →
      (undoLast s).1.reqQ.count w = s.reqQ.count w ∧
      (undoLast s).1.carA.up.heap.count w = s.carA.up.heap.count w ∧
      (undoLast s).1.carB.up.heap.count w = s.carB.up.heap.count w) ∧
    (∀ w, w ≠ -v →
      (undoLast s).1.carA.down.heap.count w = s.carA.down.heap.count w ∧
      (undoLast s).1.carB.down.heap.count w = s.carB.down.heap.count w) ∧
    ((undoLast s).1.carA.current = s.carA.current ∧
     (undoLast s).1.carA.direction = s.carA.direction ∧
     (undoLast s).1.carA.history = s.carA.history ∧
     (undoLast s).1.carB.current = s.carB.current ∧
     (undoLast s).1.carB.direction = s.carB.direction ∧
     (undoLast s).1.carB.history = s.carB.history ∧
     (undoLast s).1.undoStack = s.undoStack.dropLast) ∧
    ((undoLast s).2 = UndoResult.removed v ↔
      (v ∈ s.reqQ ∨ v ∈ s.carA.up.heap ∨ (-v) ∈ s.carA.down.heap ∨
       v ∈ s.carB.up.heap ∨ (-v) ∈ s.carB.down.heap)) ∧
    ((undoLast s).2 = UndoResult.notFound v ↔
      ¬ (v ∈ s.reqQ ∨ v ∈ s.carA.up.heap ∨ (-v) ∈ s.carA.down.heap ∨
         v ∈ s.carB.up.heap ∨ (-v) ∈ s.carB.down.heap)) := by
  simp only [undoLast, h]
  split_ifs with hc
  · simp only [Bool.or_eq_true, decide_eq_true_eq] at hc
    refine ⟨⟨?_, ?_, ?_, ?_, ?_⟩, fun w hw => ?_, fun w hw => ?_,
            ⟨rfl, rfl, rfl, rfl, rfl, rfl, rfl⟩, ?_, ?_⟩
    · simp [List.count_erase_self]
    · simp [List.count_erase_self]
    · simp [List.count_erase_self]
    · simp [List.count_erase_self]
    · simp [List.count_erase_self]
    · refine ⟨?_, ?_, ?_⟩ <;> simp [List.count_erase_of_ne hw]
    · refine ⟨?_, ?_⟩ <;> simp [List.count_erase_of_ne hw]
    · simp only [UndoResult.removed.injEq]
      constructor
      · intro _
        tauto
      · intro _
        trivial
    · constructor
      · intro hbad
        simp at hbad
      · intro hbad
        exact absurd (by tauto) hbad
  · simp only [Bool.or_eq_true, decide_eq_true_eq, not_or] at hc
    refine ⟨⟨?_, ?_, ?_, ?_, ?_⟩, fun w hw => ?_, fun w hw => ?_,
            ⟨rfl, rfl, rfl, rfl, rfl, rfl, rfl⟩, ?_, ?_⟩
    · simp [List.count_erase_self]
    · simp [List.count_erase_self]
    · simp [List.count_erase_self]
    · simp [List.count_erase_self]
    · simp [List.count_erase_self]
    · refine ⟨?_, ?_, ?_⟩ <;> simp [List.count_erase_of_ne hw]
    · refine ⟨?_, ?_⟩ <;> simp [List.count_erase_of_ne hw]
    · constructor
      · intro hbad
        simp at hbad
      · intro hbad
        exact absurd hbad (by tauto)
    · simp only [UndoResult.notFound.injEq]
      constructor
      · intro _
        tauto
      · intro _
        trivial

theorem undoLast_removes_everywhere_witness :
    undoTwiceState.undoStack.getLast? = some 6 ∧
    (undoLast undoTwiceState).1.carA.up.heap.count 6 =
      undoTwiceState.carA.up.heap.count 6 - 1 :=
  ⟨by decide, (undoLast_removes_everywhere undoTwiceState 6 (by decide)).1.2.1⟩

/-! ## C2: undo immediately after a request -/

/-- Counter to C2: submitting floor 0 with car A already at floor 0 serves the
request straight into A's history; the immediate undo then finds floor 0 in no
container, reports not-found, and the history entry survives — the
pre-request state is NOT restored. -/
theorem undo_after_request_at_current_floor :
    (submitRequest 0 initState).2 = SubmitResult.assigned CarId.A ∧
    (undoLast (submitRequest 0 initState).1).2 = UndoResult.notFound 0 ∧
    (undoLast (submitRequest 0 initState).1).1 ≠ initState ∧
    (undoLast (submitRequest 0 initState).1).1.carA.history = [0] := by decide

theorem reqQ_applyOp_empty (s : SimState) (op : Op)
    (h : s.reqQ = []) : (applyOp s op).reqQ = [] := by
  cases op with
  | request f =>
      simp only [applyOp, submitRequest]
      split_ifs
      · exact h
      · simp only [h, List.nil_append]
        cases assignRequestToElevator f s.carA s.carB <;> rfl
  | undo =>
      simp only [applyOp, undoLast]
      rcases s.undoStack.getLast? with _ | v
      · exact h
      · simp only [h]
        split_ifs <;> rfl
  | stepCmd => exact h
  | auto =>
      simp only [applyOp, runToCompletion]
      have : ∀ fuel s0 steps, s0.reqQ = [] →
          ((autoLoopFuel fuel s0 steps).1).reqQ = [] := by
        intro fuel
        induction fuel with
        | zero => intro s0 steps h0; exact h0
        | succ n ih =>
            intro s0 steps h0
            simp only [autoLoopFuel]
            split_ifs
            · exact h0
            · exact h0
            · exact ih _ _ h0
      exact this 1001 s 0 h

/-- Reachable states always have an empty incoming FIFO: the request branch
pushes and immediately pops it, and nothing else fills it. -/
theorem reqQ_runOps_empty (ops : List Op) : (runOps initState ops).reqQ = [] := by
  suffices h : ∀ s, s.reqQ = [] → (runOps s ops).reqQ = [] from h initState rfl
  induction ops with
  | nil => intro s h; exact h
  | cons op rest ih =>
      intro s h
      exact ih _ (reqQ_applyOp_empty s op h)

def SimState.car (s : SimState) : CarId → Elevator
  | CarId.A => s.carA
  | CarId.B => s.carB

/-- C2 (amended): from any reachable state, undo immediately after
`submit_request(F)` (no intervening step) removes F and restores the
pre-request state exactly, PROVIDED the assigned car is not already at floor
F (otherwise the request goes straight to the history, which undo never
reverses) and no other container already holds a pending entry with value F
(otherwise undo's value-based removal also deletes that unrelated entry). -/
theorem undo_right_after_request_restores (ops : List Op) (F : Int)
    (hlo : MIN_FLOOR ≤ F) (hhi : F ≤ MAX_FLOOR)
    (hcur : F ≠ ((runOps initState ops).car
        (assignRequestToElevator F (runOps initState ops).carA
          (runOps initState ops).carB)).current)
    (hAup : F ∉ (runOps initState ops).carA.up.heap)
    (hAdown : -F ∉ (runOps initState ops).carA.down.heap)
    (hBup : F ∉ (runOps initState ops).carB.up.heap)
    (hBdown : -F ∉ (runOps initState ops).carB.down.heap) :
    undoLast (submitRequest F (runOps initState ops)).1 =
      (runOps initState ops, UndoResult.removed F) := by
  set s := runOps initState ops with hs
  have hq : s.reqQ = [] := reqQ_runOps_empty ops
  have hrange : ¬ (F < MIN_FLOOR ∨ F > MAX_FLOOR) := by omega
  simp only [submitRequest, if_neg hrange, hq, List.nil_append]
  cases hA : assignRequestToElevator F s.carA s.carB with
  | A =>
      rw [hA] at hcur
      simp only [SimState.car] at hcur
      by_cases hgt : F > s.carA.current
      · simp only [Elevator.addRequest, if_neg (Ne.symm hcur ∘ Eq.symm), if_pos hgt,
                   UpPQ.push]
        simp [undoLast, List.getLast?_concat, List.dropLast_concat,
              List.mem_orderedInsert, erase_orderedInsert,
              List.erase_of_not_mem hAdown, List.erase_of_not_mem hBup,
              List.erase_of_not_mem hBdown]
        rw [← hq]
      · have hlt : ¬ (F > s.carA.current) := hgt
        simp only [Elevator.addRequest, if_neg (Ne.symm hcur ∘ Eq.symm), if_neg hlt,
                   DownPQ.push]
        simp [undoLast, List.getLast?_concat, List.dropLast_concat,
              List.mem_orderedInsert, erase_orderedInsert,
              List.erase_of_not_mem hAup, List.erase_of_not_mem hBup,
              List.erase_of_not_mem hBdown]
        rw [← hq]
  | B =>
      rw [hA] at hcur
      simp only [SimState.car] at hcur
      by_cases hgt : F > s.carB.current
      · simp only [Elevator.addRequest, if_neg (Ne.symm hcur ∘ Eq.symm), if_pos hgt,
                   UpPQ.push]
        simp [undoLast, List.getLast?_concat, List.dropLast_concat,
              List.mem_orderedInsert, erase_orderedInsert,
              List.erase_of_not_mem hAup, List.erase_of_not_mem hAdown,
              List.erase_of_not_mem hBdown]
        rw [← hq]
      · have hlt : ¬ (F > s.carB.current) := hgt
        simp only [Elevator.addRequest, if_neg (Ne.symm hcur ∘ Eq.symm), if_neg hlt,
                   DownPQ.push]
        simp [undoLast, List.getLast?_concat, List.dropLast_concat,
              List.mem_orderedInsert, erase_orderedInsert,
              List.erase_of_not_mem hAup, List.erase_of_not_mem hAdown,
              List.erase_of_not_mem hBup]
        rw [← hq]

theorem undo_right_after_request_restores_witness :
    (MIN_FLOOR ≤ (5 : Int) ∧ (5 : Int) ≤ MAX_FLOOR ∧
      (5 : Int) ∉ (runOps initState []).carA.up.heap) ∧
    undoLast (submitRequest 5 (runOps initState [])).1 =
      (runOps initState [], UndoResult.removed 5) :=
  ⟨⟨by decide, by decide, by decide⟩,
   undo_right_after_request_restores [] 5 (by decide) (by decide) (by decide)
     (by decide) (by decide) (by decide) (by decide)⟩

/-! ## C3: the auto-run safety cap -/

theorem autoLoopFuel_succ (n : Nat) (s : SimState) (steps : Nat) :
    autoLoopFuel (n + 1) s steps =
      if anyPending s = false then (s, steps, true)
      else if 1000 < steps + 1 then ((stepAll s).1, steps + 1, false)
      else autoLoopFuel n (stepAll s).1 (steps + 1) := rfl

/-- The structural fuel of `autoLoopFuel` is an artifact of the embedding:
any fuel large enough to outlast the `steps > 1000` cap gives the same
result, so `runToCompletion`'s choice of 1001 is canonical. -/
theorem autoLoopFuel_fuel_irrelevant :
    ∀ f1 f2 steps s, steps ≤ 1000 → 1001 ≤ steps + f1 → 1001 ≤ steps + f2 →
      autoLoopFuel f1 s steps = autoLoopFuel f2 s steps := by
  intro f1
  induction f1 with
  | zero =>
      intro f2 steps s h1 h2 h3
      omega
  | succ n ih =>
      intro f2 steps s h1 h2 h3
      cases f2 with
      | zero => omega
      | succ m =>
          rw [autoLoopFuel_succ, autoLoopFuel_succ]
          split_ifs with hp hcap
          · rfl
          · rfl
          · exact ih m (steps + 1) _ (by omega) (by omega) (by omega)

theorem autoLoopFuel_spec :
    ∀ fuel steps s, steps ≤ 1000 → 1001 ≤ steps + fuel →
      ((autoLoopFuel fuel s steps).2.1 ≤ 1001 ∧
       ((autoLoopFuel fuel s steps).2.2 = true →
         anyPending (autoLoopFuel fuel s steps).1 = false) ∧
       ((autoLoopFuel fuel s steps).2.2 = false →
         (autoLoopFuel fuel s steps).2.1 = 1001)) := by
  intro fuel
  induction fuel with
  | zero =>
      intro steps s h1 h2
      omega
  | succ n ih =>
      intro steps s h1 h2
      rw [autoLoopFuel_succ]
      split_ifs with hp hcap
      · refine ⟨?_, ?_, ?_⟩
        · show steps ≤ 1001
          omega
        · intro _
          exact hp
        · intro hfalse
          cases hfalse
      · refine ⟨?_, ?_, ?_⟩
        · show steps + 1 ≤ 1001
          omega
        · intro htrue
          cases htrue
        · intro _
          show steps + 1 = 1001
          omega
      · exact ih (steps + 1) _ (by omega) (by omega)

/-- A state with 1002 pending requests in car A's Up-queue: the `auto` loop
must run 1001 iterations before the `steps > 1000` check trips. -/
def manyPendingState : SimState :=
  { carA := { name := "A", current := 5, direction := .up,
              up := ⟨List.replicate 1002 5⟩, down := ⟨[]⟩, history := [] }
    carB := Elevator.mk0 "B", reqQ := [], undoStack := [] }

set_option maxRecDepth 10000 in
/-- Counter to C3: `run_to_completion` can perform 1001 iterations — one more
than the claimed safety cap of 1000 — because the source checks
`steps > 1000` only after incrementing. -/
theorem auto_runs_1001_iterations :
    (runToCompletion manyPendingState).2 = (1001, false) ∧
    anyPending (runToCompletion manyPendingState).1 = true := by decide

/-- C3 (amended): the auto-run `run_to_completion` always terminates, performing at most
1001 iterations (the cap check `steps > 1000` allows one iteration past
1000); with no pending requests it performs 0 iterations and reports
completion; whenever it reports completion no pending target remains, and
whenever it reports incompletion it used exactly 1001 iterations. -/
theorem runToCompletion_bounds (s : SimState) :
    (anyPending s = false → runToCompletion s = (s, 0, true)) ∧
    (runToCompletion s).2.1 ≤ 1001 ∧
    ((runToCompletion s).2.2 = true → anyPending (runToCompletion s).1 = false) ∧
    ((runToCompletion s).2.2 = false → (runToCompletion s).2.1 = 1001) := by
  refine ⟨fun hnp => ?_, ?_, ?_, ?_⟩
  · rw [runToCompletion, show (1001 : Nat) = 1000 + 1 from rfl, autoLoopFuel_succ,
        if_pos hnp]
  · exact (autoLoopFuel_spec 1001 0 s (by omega) (by omega)).1
  · exact (autoLoopFuel_spec 1001 0 s (by omega) (by omega)).2.1
  · exact (autoLoopFuel_spec 1001 0 s (by omega) (by omega)).2.2

theorem runToCompletion_bounds_witness :
    anyPending initState = false ∧
    runToCompletion initState = (initState, 0, true) :=
  ⟨by decide, (runToCompletion_bounds initState).1 (by decide)⟩

/-! ## C10: all stored floors stay in range -/

instance (f : Int) : Decidable (inRange f) := by
  unfold inRange
  infer_instance

instance (e : Elevator) : Decidable (carInRange e) := by
  unfold carInRange
  infer_instance

instance (s : SimState) : Decidable (stateInRange s) := by
  unfold stateInRange
  infer_instance

/-- The state component of an undo whose ledger is non-empty: one `erase` on
every container, ledger popped. -/
theorem undoLast_some (s : SimState) (v : Int)
    (h : s.undoStack.getLast? = some v) :
    (undoLast s).1 =
      { carA := { s.carA with up := ⟨s.carA.up.heap.erase v⟩
                              down := ⟨s.carA.down.heap.erase (-v)⟩ }
        carB := { s.carB with up := ⟨s.carB.up.heap.erase v⟩
                              down := ⟨s.carB.down.heap.erase (-v)⟩ }
        reqQ := s.reqQ.erase v
        undoStack := s.undoStack.dropLast } := by
  simp only [undoLast, h]
  split_ifs <;> rfl

theorem carInRange_addRequest (e : Elevator) (f : Int)
    (he : carInRange e) (hf : inRange f) : carInRange (e.addRequest f) := by
  obtain ⟨h1, h2, h3, h4⟩ := he
  unfold Elevator.addRequest
  split_ifs with ha hb
  · refine ⟨h1, h2, h3, fun x hx => ?_⟩
    rcases List.mem_append.mp hx with h | h
    · exact h4 x h
    · simp only [List.mem_singleton] at h
      subst h
      exact hf
  · refine ⟨h1, fun x hx => ?_, h3, h4⟩
    simp only [UpPQ.push] at hx
    rcases (List.mem_orderedInsert _).mp hx with rfl | hx'
    · exact hf
    · exact h2 x hx'
  · refine ⟨h1, h2, fun y hy => ?_, h4⟩
    simp only [DownPQ.push] at hy
    rcases (List.mem_orderedInsert _).mp hy with rfl | hy'
    · simpa using hf
    · exact h3 y hy'

theorem carInRange_serveUpBlock (e : Elevator) (he : carInRange e) :
    carInRange (e.serveUpBlock).1 := by
  obtain ⟨h1, h2, h3, h4⟩ := he
  rcases hu : e.up.heap with _ | ⟨a, t⟩
  · rcases hd : e.down.heap with _ | ⟨b, t'⟩
    · simp only [Elevator.serveUpBlock, hu, hd]
      exact ⟨h1, h2, h3, h4⟩
    · simp only [Elevator.serveUpBlock, hu, hd]
      refine ⟨h3 b (by rw [hd]; exact List.mem_cons_self b t'), h2,
              fun y hy => h3 y (by rw [hd]; exact List.mem_cons_of_mem b hy),
              fun x hx => ?_⟩
      rcases List.mem_append.mp hx with h | h
      · exact h4 x h
      · simp only [List.mem_singleton] at h
        rw [h]
        exact h3 b (by rw [hd]; exact List.mem_cons_self b t')
  · simp only [Elevator.serveUpBlock, hu]
    refine ⟨h2 a (by rw [hu]; exact List.mem_cons_self a t),
            fun x hx => h2 x (by rw [hu]; exact List.mem_cons_of_mem a hx),
            h3, fun x hx => ?_⟩
    rcases List.mem_append.mp hx with h | h
    · exact h4 x h
    · simp only [List.mem_singleton] at h
      rw [h]
      exact h2 a (by rw [hu]; exact List.mem_cons_self a t)

theorem carInRange_serveDownBlock (e : Elevator) (he : carInRange e) :
    carInRange (e.serveDownBlock).1 := by
  obtain ⟨h1, h2, h3, h4⟩ := he
  rcases hd : e.down.heap with _ | ⟨b, t'⟩
  · rcases hu : e.up.heap with _ | ⟨a, t⟩
    · simp only [Elevator.serveDownBlock, hu, hd]
      exact ⟨h1, h2, h3, h4⟩
    · simp only [Elevator.serveDownBlock, hu, hd]
      refine ⟨h2 a (by rw [hu]; exact List.mem_cons_self a t),
              fun x hx => h2 x (by rw [hu]; exact List.mem_cons_of_mem a hx),
              h3, fun x hx => ?_⟩
      rcases List.mem_append.mp hx with h | h
      · exact h4 x h
      · simp only [List.mem_singleton] at h
        rw [h]
        exact h2 a (by rw [hu]; exact List.mem_cons_self a t)
  · simp only [Elevator.serveDownBlock, hd]
    refine ⟨h3 b (by rw [hd]; exact List.mem_cons_self b t'), h2,
            fun y hy => h3 y (by rw [hd]; exact List.mem_cons_of_mem b hy),
            fun x hx => ?_⟩
    rcases List.mem_append.mp hx with h | h
    · exact h4 x h
    · simp only [List.mem_singleton] at h
      rw [h]
      exact h3 b (by rw [hd]; exact List.mem_cons_self b t')

theorem carInRange_moveToNext (e : Elevator) (he : carInRange e) :
    carInRange (e.moveToNext).1 := by
  by_cases h1 : e.direction = .idle
  · rw [Elevator.moveToNext, if_pos h1]
    rcases hu : e.up.heap with _ | ⟨a, t⟩ <;> rcases hd : e.down.heap with _ | ⟨b, t'⟩
    · have hup : e.up.peek = none := by simp [UpPQ.peek, hu]
      have hdp : e.down.peek = none := by simp [DownPQ.peek, hd]
      simp only [hup, hdp]
      exact he
    · have hup : e.up.peek = none := by simp [UpPQ.peek, hu]
      have hdp : e.down.peek = some (-b) := by simp [DownPQ.peek, hd]
      simp only [hup, hdp]
      exact carInRange_serveDownBlock _ he
    · have hup : e.up.peek = some a := by simp [UpPQ.peek, hu]
      have hdp : e.down.peek = none := by simp [DownPQ.peek, hd]
      simp only [hup, hdp]
      exact carInRange_serveUpBlock _ he
    · have hup : e.up.peek = some a := by simp [UpPQ.peek, hu]
      have hdp : e.down.peek = some (-b) := by simp [DownPQ.peek, hd]
      simp only [hup, hdp]
      split_ifs
      · exact carInRange_serveUpBlock _ he
      · exact carInRange_serveDownBlock _ he
  · rw [Elevator.moveToNext, if_neg h1]
    split_ifs
    · exact carInRange_serveUpBlock _ he
    · exact carInRange_serveDownBlock _ he

theorem stateInRange_stepAll (s : SimState) (hs : stateInRange s) :
    stateInRange (stepAll s).1 :=
  ⟨carInRange_moveToNext _ hs.1, carInRange_moveToNext _ hs.2.1, hs.2.2⟩

theorem stateInRange_undoLast (s : SimState) (hs : stateInRange s) :
    stateInRange (undoLast s).1 := by
  cases hl : s.undoStack.getLast? with
  | none =>
      simp only [undoLast, hl]
      exact hs
  | some v =>
      obtain ⟨⟨a1, a2, a3, a4⟩, ⟨b1, b2, b3, b4⟩, hq⟩ := hs
      rw [undoLast_some s v hl]
      exact ⟨⟨a1, fun x hx => a2 x (List.mem_of_mem_erase hx),
              fun y hy => a3 y (List.mem_of_mem_erase hy), a4⟩,
             ⟨b1, fun x hx => b2 x (List.mem_of_mem_erase hx),
              fun y hy => b3 y (List.mem_of_mem_erase hy), b4⟩,
             fun g hg => hq g (List.mem_of_mem_erase hg)⟩

theorem stateInRange_submitRequest (s : SimState) (f : Int)
    (hs : stateInRange s) : stateInRange (submitRequest f s).1 := by
  unfold submitRequest
  split_ifs with h
  · exact hs
  · have hf : inRange f := by
      unfold inRange
      omega
    have hall : ∀ g ∈ s.reqQ ++ [f], inRange g := by
      intro g hg
      rcases List.mem_append.mp hg with h' | h'
      · exact hs.2.2 g h'
      · simp only [List.mem_singleton] at h'
        subst h'
        exact hf
    rcases hq : s.reqQ ++ [f] with _ | ⟨next, rest⟩
    · simp only [hq]
      exact ⟨hs.1, hs.2.1, by simp⟩
    · simp only [hq]
      have hnext : inRange next := hall next (by rw [hq]; exact List.mem_cons_self next rest)
      have hrest : ∀ g ∈ rest, inRange g := fun g hg =>
        hall g (by rw [hq]; exact List.mem_cons_of_mem next hg)
      cases hc : assignRequestToElevator next s.carA s.carB
      · simp only [hc]
        exact ⟨carInRange_addRequest _ _ hs.1 hnext, hs.2.1, hrest⟩
      · simp only [hc]
        exact ⟨hs.1, carInRange_addRequest _ _ hs.2.1 hnext, hrest⟩

theorem stateInRange_autoLoopFuel :
    ∀ fuel (s : SimState) steps, stateInRange s →
      stateInRange (autoLoopFuel fuel s steps).1 := by
  intro fuel
  induction fuel with
  | zero => intro s steps hs; exact hs
  | succ n ih =>
      intro s steps hs
      rw [autoLoopFuel_succ]
      split_ifs
      · exact hs
      · exact stateInRange_stepAll s hs
      · exact ih _ _ (stateInRange_stepAll s hs)

theorem stateInRange_applyOp (s : SimState) (op : Op) (hs : stateInRange s) :
    stateInRange (applyOp s op) := by
  cases op with
  | request f => exact stateInRange_submitRequest s f hs
  | undo => exact stateInRange_undoLast s hs
  | stepCmd => exact stateInRange_stepAll s hs
  | auto => exact stateInRange_autoLoopFuel 1001 s 0 hs

theorem stateInRange_runOps (ops : List Op) :
    ∀ s, stateInRange s → stateInRange (runOps s ops) := by
  induction ops with
  | nil => intro s hs; exact hs
  | cons op rest ih =>
      intro s hs
      exact ih (applyOp s op) (stateInRange_applyOp s op hs)

/-- C10: starting from the initial state, after any sequence of public
operations whose submitted floors all pass the bounds check, every car's
current floor and every floor stored in any queue, the incoming FIFO or any
history lies within `[MIN_FLOOR, MAX_FLOOR]`.  (The in-code bounds guard in
fact makes this hold for arbitrary submissions; the hypothesis mirrors the
claim.) -/
theorem floors_stay_in_range (ops : List Op) (_hguard : opsInRange ops) :
    stateInRange (runOps initState ops) :=
  stateInRange_runOps ops initState (by decide)

theorem floors_stay_in_range_witness :
    opsInRange [Op.request 7, Op.stepCmd] ∧
    stateInRange (runOps initState [Op.request 7, Op.stepCmd]) := by
  have hops : opsInRange [Op.request 7, Op.stepCmd] := by
    intro op hop
    simp only [List.mem_cons, List.not_mem_nil, or_false] at hop
    rcases hop with rfl | rfl
    · show inRange 7
      decide
    · trivial
  exact ⟨hops, floors_stay_in_range _ hops⟩

/-! ## C9: SCAN sweeps serve monotone floor sequences -/

theorem carInv_mk0 (name : String) : carInv (Elevator.mk0 name) := by
  refine ⟨?_, ?_, ?_, ?_⟩ <;> simp [Elevator.mk0]

theorem carInv_addRequest (e : Elevator) (f : Int) (h : carInv e) :
    carInv (e.addRequest f) := by
  obtain ⟨hsu, hsd, hu, hd⟩ := h
  unfold Elevator.addRequest
  split_ifs with h1 h2
  · exact ⟨hsu, hsd, hu, hd⟩
  · refine ⟨List.Sorted.orderedInsert f _ hsu, hsd, fun x hx => ?_, hd⟩
    simp only [UpPQ.push] at hx
    rcases (List.mem_orderedInsert _).mp hx with rfl | hx'
    · dsimp only
      omega
    · exact hu x hx'
  · refine ⟨hsu, List.Sorted.orderedInsert (-f) _ hsd, hu, fun y hy => ?_⟩
    simp only [DownPQ.push] at hy
    rcases (List.mem_orderedInsert _).mp hy with rfl | hy'
    · dsimp only
      omega
    · exact hd y hy'

theorem carInv_serveUpBlock (e : Elevator) (h : carInv e) :
    carInv (e.serveUpBlock).1 := by
  obtain ⟨hsu, hsd, hu, hd⟩ := h
  rcases hup : e.up.heap with _ | ⟨a, t⟩
  · rcases hdp : e.down.heap with _ | ⟨b, t'⟩
    · simp only [Elevator.serveUpBlock, hup, hdp]
      exact ⟨hsu, hsd, hu, hd⟩
    · simp only [Elevator.serveUpBlock, hup, hdp]
      refine ⟨hsu, ?_, ?_, ?_⟩
      · exact (hdp ▸ hsd).of_cons
      · intro x hx
        rw [hup] at hx
        cases hx
      · intro y hy
        have hby : b ≤ y := (List.sorted_cons.mp (hdp ▸ hsd)).1 y hy
        dsimp only
        omega
  · simp only [Elevator.serveUpBlock, hup]
    refine ⟨(List.sorted_cons.mp (hup ▸ hsu)).2, hsd, ?_, ?_⟩
    · intro x hx
      exact (List.sorted_cons.mp (hup ▸ hsu)).1 x hx
    · intro y hy
      have hy1 : -y ≤ e.current := hd y hy
      have hy2 : e.current ≤ a := hu a (by rw [hup]; exact List.mem_cons_self a t)
      dsimp only
      omega

theorem carInv_serveDownBlock (e : Elevator) (h : carInv e) :
    carInv (e.serveDownBlock).1 := by
  obtain ⟨hsu, hsd, hu, hd⟩ := h
  rcases hdp : e.down.heap with _ | ⟨b, t'⟩
  · rcases hup : e.up.heap with _ | ⟨a, t⟩
    · simp only [Elevator.serveDownBlock, hup, hdp]
      exact ⟨hsu, hsd, hu, hd⟩
    · simp only [Elevator.serveDownBlock, hup, hdp]
      refine ⟨(hup ▸ hsu).of_cons, hsd, ?_, ?_⟩
      · intro x hx
        exact (List.sorted_cons.mp (hup ▸ hsu)).1 x hx
      · intro y hy
        rw [hdp] at hy
        cases hy
  · simp only [Elevator.serveDownBlock, hdp]
    refine ⟨hsu, (hdp ▸ hsd).of_cons, ?_, ?_⟩
    · intro x hx
      have hx1 : e.current ≤ x := hu x hx
      have hx2 : -b ≤ e.current := hd b (by rw [hdp]; exact List.mem_cons_self b t')
      dsimp only
      omega
    · intro y hy
      have hby : b ≤ y := (List.sorted_cons.mp (hdp ▸ hsd)).1 y hy
      dsimp only
      omega

theorem carInv_moveToNext (e : Elevator) (h : carInv e) :
    carInv (e.moveToNext).1 := by
  by_cases h1 : e.direction = .idle
  · rw [Elevator.moveToNext, if_pos h1]
    rcases hu : e.up.heap with _ | ⟨a, t⟩ <;> rcases hd : e.down.heap with _ | ⟨b, t'⟩
    · have hup : e.up.peek = none := by simp [UpPQ.peek, hu]
      have hdp : e.down.peek = none := by simp [DownPQ.peek, hd]
      simp only [hup, hdp]
      exact h
    · have hup : e.up.peek = none := by simp [UpPQ.peek, hu]
      have hdp : e.down.peek = some (-b) := by simp [DownPQ.peek, hd]
      simp only [hup, hdp]
      exact carInv_serveDownBlock _ h
    · have hup : e.up.peek = some a := by simp [UpPQ.peek, hu]
      have hdp : e.down.peek = none := by simp [DownPQ.peek, hd]
      simp only [hup, hdp]
      exact carInv_serveUpBlock _ h
    · have hup : e.up.peek = some a := by simp [UpPQ.peek, hu]
      have hdp : e.down.peek = some (-b) := by simp [DownPQ.peek, hd]
      simp only [hup, hdp]
      split_ifs
      · exact carInv_serveUpBlock _ h
      · exact carInv_serveDownBlock _ h
  · rw [Elevator.moveToNext, if_neg h1]
    split_ifs
    · exact carInv_serveUpBlock _ h
    · exact carInv_serveDownBlock _ h

theorem moveToNext_up_cons (e : Elevator) (hdir : e.direction = .up)
    {a : Int} {t : List Int} (hup : e.up.heap = a :: t) :
    e.moveToNext.2 = some a ∧ e.moveToNext.1.current = a := by
  rw [Elevator.moveToNext, if_neg (by simp [hdir]), if_pos hdir]
  constructor <;> simp [Elevator.serveUpBlock, hup]

theorem moveToNext_down_cons (e : Elevator) (hdir : e.direction = .down)
    {b : Int} {t' : List Int} (hdp : e.down.heap = b :: t') :
    e.moveToNext.2 = some (-b) ∧ e.moveToNext.1.current = -b := by
  rw [Elevator.moveToNext, if_neg (by simp [hdir]), if_neg (by simp [hdir])]
  constructor <;> simp [Elevator.serveDownBlock, hdp]

theorem chainUp (ops : List CarOp) :
    ∀ e : Elevator, carInv e →
      List.Chain' (· ≤ ·) (e.current :: upRunServes e ops) := by
  induction ops with
  | nil =>
      intro e h
      simp [upRunServes]
  | cons op rest ih =>
      intro e h
      cases op with
      | add f =>
          rw [upRunServes]
          split_ifs with hdir
          · have hchain := ih (e.addRequest f) (carInv_addRequest e f h)
            rw [addRequest_current] at hchain
            exact hchain
          · simp
      | serve =>
          rw [upRunServes]
          split_ifs with hcond
          · obtain ⟨hdir, hne⟩ := hcond
            rcases hup : e.up.heap with _ | ⟨a, t⟩
            · exact absurd hup hne
            · obtain ⟨hm2, hm1⟩ := moveToNext_up_cons e hdir hup
              rw [hm2]
              refine List.chain'_cons.mpr ⟨?_, ?_⟩
              · exact h.2.2.1 a (by rw [hup]; exact List.mem_cons_self a t)
              · have hchain := ih e.moveToNext.1 (carInv_moveToNext e h)
                rw [hm1] at hchain
                exact hchain
          · simp

theorem chainDown (ops : List CarOp) :
    ∀ e : Elevator, carInv e →
      List.Chain' (fun a b => b ≤ a) (e.current :: downRunServes e ops) := by
  induction ops with
  | nil =>
      intro e h
      simp [downRunServes]
  | cons op rest ih =>
      intro e h
      cases op with
      | add f =>
          rw [downRunServes]
          split_ifs with hdir
          · have hchain := ih (e.addRequest f) (carInv_addRequest e f h)
            rw [addRequest_current] at hchain
            exact hchain
          · simp
      | serve =>
          rw [downRunServes]
          split_ifs with hcond
          · obtain ⟨hdir, hne⟩ := hcond
            rcases hdp : e.down.heap with _ | ⟨b, t'⟩
            · exact absurd hdp hne
            · obtain ⟨hm2, hm1⟩ := moveToNext_down_cons e hdir hdp
              rw [hm2]
              refine List.chain'_cons.mpr ⟨?_, ?_⟩
              · exact h.2.2.2 b (by rw [hdp]; exact List.mem_cons_self b t')
              · have hchain := ih e.moveToNext.1 (carInv_moveToNext e h)
                rw [hm1] at hchain
                exact hchain
          · simp

theorem carInv_runCarOps (ops : List CarOp) :
    ∀ e, carInv e → carInv (runCarOps e ops) := by
  induction ops with
  | nil => intro e h; exact h
  | cons op rest ih =>
      intro e h
      cases op with
      | add f => exact ih _ (carInv_addRequest e f h)
      | serve => exact ih _ (carInv_moveToNext e h)

/-- C9: starting from a freshly created car and applying any operations, over
any run of consecutive `move_to_next` pops during which the car's direction
stays Up, the floors popped from the Up-queue are non-decreasing, even with
`add_request` calls interleaved; symmetrically, while the direction stays
Down, the floors popped from the Down-queue are non-increasing. -/
theorem sweep_order_monotone (name : String) (ops0 ops : List CarOp) :
    List.Chain' (· ≤ ·)
      (upRunServes (runCarOps (Elevator.mk0 name) ops0) ops) ∧
    List.Chain' (fun a b => b ≤ a)
      (downRunServes (runCarOps (Elevator.mk0 name) ops0) ops) := by
  have h := carInv_runCarOps ops0 (Elevator.mk0 name) (carInv_mk0 name)
  exact ⟨(chainUp ops _ h).tail, (chainDown ops _ h).tail⟩
